import Mathlib

/-!
# Lock-free stack with a tagged head pointer (`src/main.cpp`)

A shallow embedding of `struct node` (both encodings), `class stack`
(`push`, `pop`) and the single-thread workload of `thread_test`.

Modelling conventions.

* A `node` of the packed encoding (`PROCESSOR_BITS == 64`) is its 64-bit word
  `n_`, a natural number; the four `uint16_t` halves are addressed as on a
  little-endian machine (x86-64), so index 3 is bits 48..63.
* A `node*` is the address it holds; `nullptr` is `0`.
* The heap is a function from addresses to the word stored in the `n_` field
  of the node at that address.
* `compare_exchange_weak` is modelled without spurious failure, and a call of
  `push` or `pop` runs without interference from other threads.
* A call of `pop` that another thread interrupts between two compare-and-swap
  attempts is resumed as `pop_loop` with its locals `old_head`, `new_head`, `n`
  on the memory the other thread left.
* `__debugbreak()` ends the call abnormally (`none`).
* The `while` loop of `pop` is driven by fuel: one unit per evaluation of the
  loop condition, that is, per compare-and-swap attempt.
-/

namespace LockFreeStack

/-! ## `struct node`, packed encoding (`PROCESSOR_BITS == 64`) -/

namespace node

/-- The `uint16_t` at index 3 of the word: `((const stack_id*)&nid)[3]`. -/
def id3 (w : Nat) : Nat := w / 2 ^ 48 % 2 ^ 16

/-- Store of a `stack_id` (truncated to 16 bits) at index 3 of the word. -/
def set_id3 (w v : Nat) : Nat := w % 2 ^ 48 + 2 ^ 48 * (v % 2 ^ 16)

/-- Source line 57: `((stack_id*)this)[3] = ((const stack_id*)&nid)[3] + 1;`.
The first argument is `*this`, the result is `*this` after the call. -/
def create_id (self nid : Nat) : Nat := set_id3 self (id3 nid + 1)

/-- Source line 58: `return (node*)((uint64_t)n_ & 0x0000ffffffffffff);`. -/
def next_pointer (self : Nat) : Nat := self &&& 0x0000ffffffffffff

/-- The argument `const node& nid` of `set`: it refers either to the object
`*this` on which `set` is called, or to another object, which holds the given
word. -/
inductive reference where
  | own
  | other (w : Nat)

/-- The word read through the reference at a moment when `*this` holds the
word `self`. -/
def reference.read (self : Nat) : reference → Nat
  | reference.own => self
  | reference.other w => w

/-- Source line 67:
`n_ = n; if (n_) create_id(nid); else create_id(*this);`.
The assignment `n_ = n` replaces the whole word of `*this`; `nid` and `*this`
are read after that assignment, so a reference to `*this` itself sees the new
word. -/
def set (_self n : Nat) (nid : reference) : Nat :=
  let self1 := n
  if self1 ≠ 0 then create_id self1 (nid.read self1) else create_id self1 self1

end node

/-! ## `struct node`, separate-field encoding (`PROCESSOR_BITS == 32`) -/

/-- The node of the separate-field encoding: `node *n_; uint32_t t_;`. -/
structure node32 where
  n_ : Nat
  t_ : Nat
deriving DecidableEq

namespace node32

/-- Source line 64: `t_ = nid.t_ + 1;` on `uint32_t`. -/
def create_id (self nid : node32) : node32 := { self with t_ := (nid.t_ + 1) % 2 ^ 32 }

/-- Source line 65: `return n_;`. -/
def next_pointer (self : node32) : Nat := self.n_

/-- The argument `const node& nid` of `set` in the separate-field encoding:
the object `*this` itself, or another object. -/
inductive reference where
  | own
  | other (w : node32)

/-- The object read through the reference at a moment when `*this` is `self`. -/
def reference.read (self : node32) : reference → node32
  | reference.own => self
  | reference.other w => w

/-- Source line 67 in the separate-field encoding: `n_ = n` leaves `t_` as it
was. -/
def set (self : node32) (n : Nat) (nid : reference) : node32 :=
  let self1 : node32 := { self with n_ := n }
  if self1.n_ ≠ 0 then create_id self1 (nid.read self1) else create_id self1 self1

end node32

/-! ## `class stack` -/

/-- The shared memory a call works on: the atomic `head_` and the `n_` field
of the node at every address. -/
structure State where
  head_ : Nat
  link : Nat → Nat

/-- Assignment `a->n_ = v`. -/
def store (link : Nat → Nat) (a v : Nat) : Nat → Nat :=
  fun x => if x = a then v else link x

/-- Result of `head_.compare_exchange_weak(expected, desired)` on the current
value `head` of `head_`: success flag, new value of `head_`, new value of
`expected`. -/
def compare_exchange_weak (head expected desired : Nat) : Bool × Nat × Nat :=
  if head = expected then (true, desired, expected) else (false, head, head)

/-- The freshly constructed stack: `head_` is `node()`, the zero word. -/
def fresh (link : Nat → Nat) : State := ⟨0, link⟩

namespace stack

/-- Source lines 73-94, `void push(node* n)`; `none` is `__debugbreak()`. -/
def push (s : State) (n : Nat) : Option State :=
  let old_head := 0
  let new_head := n
  let link1 := store s.link n 0
  match compare_exchange_weak s.head_ old_head new_head with
  | (true, head1, _) => some ⟨head1, link1⟩
  | (false, head1, old_head1) =>
    let link2 := store link1 n old_head1
    let new_head1 := node.create_id new_head old_head1
    match compare_exchange_weak head1 old_head1 new_head1 with
    | (true, head2, _) => some ⟨head2, link2⟩
    | (false, _, _) => none

/-- The `while` loop of `pop` (source lines 99-105) followed by
`return n != nullptr;`. The result is the returned flag, the handle `n` and the
memory after the call. -/
def pop_loop : Nat → State → Nat → Nat → Nat → Option (Bool × Nat × State)
  | 0, _, _, _, _ => none
  | fuel + 1, s, old_head, new_head, n =>
    match compare_exchange_weak s.head_ old_head new_head with
    | (true, head1, _) => some (decide (n ≠ 0), n, ⟨head1, s.link⟩)
    | (false, head1, old_head1) =>
      let n1 := node.next_pointer old_head1
      if n1 = 0 then some (decide (n1 ≠ 0), n1, ⟨head1, s.link⟩)
      else
        let new_head1 := node.set new_head (s.link n1) (node.reference.other old_head1)
        pop_loop fuel ⟨head1, s.link⟩ old_head1 new_head1 n1

/-- Source lines 95-107, `bool pop(node*& n)`:
`node old_head, new_head; n = nullptr;` and then the loop. -/
def pop (fuel : Nat) (s : State) : Option (Bool × Nat × State) :=
  pop_loop fuel s 0 0 0

end stack

/-! ## The sequences of calls the claims speak about -/

/-- Calls `push` for each node of the list, in order. -/
def push_list : State → List Nat → Option State
  | s, [] => some s
  | s, n :: ns => (stack.push s n).bind (fun s1 => push_list s1 ns)

/-- Calls `pop` `k` times; the result lists the returned flag and handle of
each call, in order, with the memory after the last call. -/
def pop_times (fuel : Nat) : Nat → State → Option (List (Bool × Nat) × State)
  | 0, s => some ([], s)
  | k + 1, s =>
    match stack.pop fuel s with
    | none => none
    | some (b, n, s1) =>
      match pop_times fuel k s1 with
      | none => none
      | some (rs, s2) => some ((b, n) :: rs, s2)

/-! ## `thread_test`, one thread

`data_count` is the length of the array `d`, `loop_count` the number of outer
iterations; the time measurement has no effect on the stack. -/

/-- Source lines 122-126: `if (d[i]) s->push(d[i]);` for each `i` in order. -/
def thread_push : State → List Nat → Option State
  | s, [] => some s
  | s, di :: ds =>
    if di ≠ 0 then (stack.push s di).bind (fun s1 => thread_push s1 ds)
    else thread_push s ds

/-- Source lines 128-129: `s->pop((node*&)d[i]);` for each `i` in order; the
result is the array `d` after the loop. -/
def thread_pop (fuel : Nat) : State → List Nat → Option (List Nat × State)
  | s, [] => some ([], s)
  | s, _ :: ds =>
    match stack.pop fuel s with
    | none => none
    | some (_, n, s1) =>
      match thread_pop fuel s1 ds with
      | none => none
      | some (d1, s2) => some (n :: d1, s2)

/-- Source lines 120-131: `loop_count` rounds of pushing all of `d` and
popping into all of `d`. -/
def thread_loop (fuel : Nat) : Nat → State → List Nat → Option (List Nat × State)
  | 0, s, d => some (d, s)
  | k + 1, s, d =>
    match thread_push s d with
    | none => none
    | some s1 =>
      match thread_pop fuel s1 d with
      | none => none
      | some (d1, s2) => thread_loop fuel k s2 d1

/-- Source lines 138-144: the number of `d[i]` that are null at the end. -/
def empty_count : List Nat → Nat
  | [] => 0
  | di :: ds => if di ≠ 0 then empty_count ds else empty_count ds + 1

/-- Source lines 112-145: the count added to `*empty_count` and the memory
after the call, for the array `d` of freshly allocated nodes. -/
def thread_test (fuel loop_count : Nat) (s : State) (d : List Nat) : Option (Nat × State) :=
  match thread_loop fuel loop_count s d with
  | none => none
  | some (d1, s1) => some (empty_count d1, s1)

/-- The list `l` is the chain of nodes met by following `next_pointer()` from
the word `p` through the link fields until a null pointer. -/
def chain (link : Nat → Nat) : Nat → List Nat → Prop
  | p, [] => node.next_pointer p = 0
  | p, x :: xs => node.next_pointer p = x ∧ x ≠ 0 ∧ chain link (link x) xs

/-- Whether a given list is the chain from a given word can be computed. -/
def chain_decidable (link : Nat → Nat) : ∀ (p : Nat) (l : List Nat), Decidable (chain link p l)
  | p, [] => inferInstanceAs (Decidable (node.next_pointer p = 0))
  | p, x :: xs =>
    have : Decidable (chain link (link x) xs) := chain_decidable link (link x) xs
    inferInstanceAs (Decidable (node.next_pointer p = x ∧ x ≠ 0 ∧ chain link (link x) xs))

instance (link : Nat → Nat) (p : Nat) (l : List Nat) : Decidable (chain link p l) :=
  chain_decidable link p l

/-- The abstract contents of the stack: the chain that starts at `head_`. -/
def contents (s : State) (l : List Nat) : Prop := chain s.link s.head_ l

instance (s : State) (l : List Nat) : Decidable (contents s l) :=
  chain_decidable s.link s.head_ l

/-- The head value written as the pair (pointer, tag) of the packed encoding. -/
def pack (pointer tag : Nat) : Nat := pointer + 2 ^ 48 * tag

/-- The word obtained from `p` by one `create_id` call for each reference word
of the list, in order. -/
def retag (p : Nat) (nids : List Nat) : Nat := nids.foldl node.create_id p

/-- States reachable from the freshly constructed stack by sequential calls of
`push` and `pop`, where each pushed node is non-null, has an address below
`2 ^ 48` and is not in the contents at the time of the call. -/
inductive Reachable : State → Prop
  | init (link : Nat → Nat) : Reachable (fresh link)
  | push {s s1 : State} (n : Nat) (l : List Nat) : Reachable s → n ≠ 0 → n < 2 ^ 48 →
      contents s l → n ∉ l → stack.push s n = some s1 → Reachable s1
  | pop {s s1 : State} (fuel : Nat) (b : Bool) (n : Nat) : Reachable s →
      stack.pop fuel s = some (b, n, s1) → Reachable s1

/-! ## Basic facts about the embedding -/

theorem next_pointer_eq_mod (w : Nat) : node.next_pointer w = w % 2 ^ 48 := by
  unfold node.next_pointer
  exact Nat.and_pow_two_sub_one_eq_mod w 48

theorem next_pointer_of_lt {w : Nat} (h : w < 2 ^ 48) : node.next_pointer w = w := by
  rw [next_pointer_eq_mod]; exact Nat.mod_eq_of_lt h

theorem create_id_eq (self nid : Nat) :
    node.create_id self nid = pack (self % 2 ^ 48) ((node.id3 nid + 1) % 2 ^ 16) := rfl

theorem next_pointer_pack (p t : Nat) : node.next_pointer (pack p t) = p % 2 ^ 48 := by
  rw [next_pointer_eq_mod]; unfold pack; omega

theorem id3_pack {p t : Nat} (hp : p < 2 ^ 48) (ht : t < 2 ^ 16) :
    node.id3 (pack p t) = t := by
  unfold node.id3 pack; omega

theorem set_of_ne_zero (self : Nat) {n : Nat} (nid : Nat) (h : n ≠ 0) :
    node.set self n (node.reference.other nid) =
      pack (n % 2 ^ 48) ((node.id3 nid + 1) % 2 ^ 16) := by
  simp [node.set, node.reference.read, h, create_id_eq]

theorem set_own_of_ne_zero (self : Nat) {n : Nat} (h : n ≠ 0) :
    node.set self n node.reference.own = pack (n % 2 ^ 48) ((node.id3 n + 1) % 2 ^ 16) := by
  simp [node.set, node.reference.read, h, create_id_eq]

theorem set_zero (self : Nat) (nid : node.reference) : node.set self 0 nid = pack 0 1 := by
  simp [node.set, create_id_eq, node.id3]

theorem next_pointer_set (self n : Nat) (nid : node.reference) :
    node.next_pointer (node.set self n nid) = node.next_pointer n := by
  by_cases h : n = 0
  · subst h; rw [set_zero]; decide
  · cases nid with
    | own => rw [set_own_of_ne_zero self h, next_pointer_pack, next_pointer_eq_mod]; omega
    | other w => rw [set_of_ne_zero self w h, next_pointer_pack, next_pointer_eq_mod]; omega

theorem store_same (link : Nat → Nat) (a v : Nat) : store link a v a = v := by
  simp [store]

theorem store_other (link : Nat → Nat) {a x : Nat} (v : Nat) (h : x ≠ a) :
    store link a v x = link x := by
  simp [store, h]

theorem store_store (link : Nat → Nat) (a v w : Nat) :
    store (store link a v) a w = store link a w := by
  funext x; unfold store; split <;> rfl

/-- Closed form of `push`: the fast path when `head_` is the zero word, the
first iteration of the loop otherwise. -/
theorem push_eq (s : State) (n : Nat) :
    stack.push s n = some (if s.head_ = 0 then ⟨n, store s.link n 0⟩
      else ⟨node.create_id n s.head_, store s.link n s.head_⟩) := by
  by_cases h : s.head_ = 0
  · simp [stack.push, compare_exchange_weak, h]
  · simp [stack.push, compare_exchange_weak, h, store_store]

/-- Closed form of `pop` on a head whose pointer component is null. -/
theorem pop_null (fuel : Nat) (s : State) (h : node.next_pointer s.head_ = 0) :
    stack.pop (fuel + 1) s = some (false, 0, s) := by
  by_cases h0 : s.head_ = 0
  · simp [stack.pop, stack.pop_loop, compare_exchange_weak, h0]
    cases s; simp_all
  · simp [stack.pop, stack.pop_loop, compare_exchange_weak, h0, h]

/-- Closed form of `pop` on a head whose pointer component is not null. -/
theorem pop_top (fuel : Nat) (s : State) (h : node.next_pointer s.head_ ≠ 0) :
    stack.pop (fuel + 2) s = some (true, node.next_pointer s.head_,
      ⟨node.set 0 (s.link (node.next_pointer s.head_)) (node.reference.other s.head_),
        s.link⟩) := by
  have h0 : s.head_ ≠ 0 := by
    intro h1; apply h; rw [h1]; decide
  simp [stack.pop, stack.pop_loop, compare_exchange_weak, h0, h]

/-! ## The chain of nodes under the two operations -/

theorem chain_congr (link : Nat → Nat) {p q : Nat}
    (h : node.next_pointer p = node.next_pointer q) (l : List Nat) :
    chain link p l ↔ chain link q l := by
  cases l <;> simp [chain, h]

theorem chain_store (link : Nat → Nat) (a v : Nat) :
    ∀ (l : List Nat) (p : Nat), a ∉ l → (chain (store link a v) p l ↔ chain link p l)
  | [], p, _ => by simp [chain]
  | x :: xs, p, h => by
    have hx : x ≠ a := fun e => h (by simp [e])
    have hxs : a ∉ xs := fun e => h (by simp [e])
    simp only [chain, store_other link v hx, chain_store link a v xs (link x) hxs]

theorem chain_unique (link : Nat → Nat) :
    ∀ (l l1 : List Nat) (p : Nat), chain link p l → chain link p l1 → l = l1
  | [], [], _, _, _ => rfl
  | [], y :: ys, p, h, h1 => by
    simp only [chain] at h h1
    exact absurd (h1.1.symm.trans h) h1.2.1
  | x :: xs, [], p, h, h1 => by
    simp only [chain] at h h1
    exact absurd (h.1.symm.trans h1) h.2.1
  | x :: xs, y :: ys, p, h, h1 => by
    simp only [chain] at h h1
    have e : x = y := h.1.symm.trans h1.1
    subst e
    rw [chain_unique link xs ys (link x) h.2.2 h1.2.2]

theorem chain_lt (link : Nat → Nat) :
    ∀ (l : List Nat) (p : Nat), chain link p l → ∀ x ∈ l, x ≠ 0 ∧ x < 2 ^ 48
  | [], _, _, x, hx => by simp at hx
  | y :: ys, p, h, x, hx => by
    simp only [chain] at h
    rcases List.mem_cons.1 hx with e | e
    · subst e
      refine ⟨h.2.1, ?_⟩
      rw [← h.1, next_pointer_eq_mod]
      exact Nat.mod_lt _ (by decide)
    · exact chain_lt link ys (link y) h.2.2 x e

/-- The memory written by `push`: the link of `n` holds the previous head word
on both paths (on the fast path that word is zero). -/
theorem push_link (s : State) (n : Nat) :
    ∃ s1, stack.push s n = some s1 ∧ s1.link = store s.link n s.head_ ∧
      node.next_pointer s1.head_ = node.next_pointer n := by
  rw [push_eq]
  by_cases h : s.head_ = 0
  · simp [h]
  · simp only [h, if_false]
    refine ⟨_, rfl, rfl, ?_⟩
    rw [create_id_eq, next_pointer_pack, next_pointer_eq_mod]
    rw [Nat.mod_mod]

theorem push_contents (s : State) (n : Nat) (l : List Nat) (hn : n ≠ 0) (hlt : n < 2 ^ 48)
    (hc : contents s l) (hfresh : n ∉ l) :
    ∃ s1, stack.push s n = some s1 ∧ contents s1 (n :: l) := by
  obtain ⟨s1, h1, h2, h3⟩ := push_link s n
  refine ⟨s1, h1, ?_⟩
  unfold contents
  rw [h2]
  refine ⟨by rw [h3, next_pointer_of_lt hlt], hn, ?_⟩
  rw [store_same, chain_store _ _ _ _ _ hfresh]
  exact hc

theorem pop_contents (fuel : Nat) (s : State) (x : Nat) (rest : List Nat)
    (hc : contents s (x :: rest)) :
    ∃ s1, stack.pop (fuel + 2) s = some (true, x, s1) ∧ contents s1 rest ∧
      s1.link = s.link := by
  unfold contents at hc
  simp only [chain] at hc
  have hne : node.next_pointer s.head_ ≠ 0 := by rw [hc.1]; exact hc.2.1
  rw [pop_top fuel s hne, hc.1]
  refine ⟨_, rfl, ?_, rfl⟩
  unfold contents
  exact (chain_congr s.link (next_pointer_set 0 (s.link x) (node.reference.other s.head_)) rest).2 hc.2.2

theorem pop_empty_contents (fuel : Nat) (s : State) (hc : contents s []) :
    stack.pop (fuel + 1) s = some (false, 0, s) :=
  pop_null fuel s hc

theorem push_list_contents :
    ∀ (ns : List Nat) (s : State) (l : List Nat), contents s l → ns.Nodup →
      (∀ n ∈ ns, n ≠ 0 ∧ n < 2 ^ 48 ∧ n ∉ l) →
      ∃ s1, push_list s ns = some s1 ∧ contents s1 (ns.reverse ++ l)
  | [], s, l, hc, _, _ => ⟨s, rfl, by simpa using hc⟩
  | n :: ns, s, l, hc, hnd, hall => by
    have hn := hall n (by simp)
    obtain ⟨s1, h1, h2⟩ := push_contents s n l hn.1 hn.2.1 hc hn.2.2
    have hnd1 := List.nodup_cons.1 hnd
    obtain ⟨s2, h3, h4⟩ := push_list_contents ns s1 (n :: l) h2 hnd1.2 (by
      intro m hm
      have := hall m (by simp [hm])
      refine ⟨this.1, this.2.1, ?_⟩
      intro hmem
      rcases List.mem_cons.1 hmem with e | e
      · exact hnd1.1 (e ▸ hm)
      · exact this.2.2 e)
    refine ⟨s2, ?_, ?_⟩
    · simp [push_list, h1, h3]
    · simpa using h4

theorem pop_times_contents (fuel : Nat) :
    ∀ (l : List Nat) (s : State), contents s l →
      ∃ s1, pop_times (fuel + 2) l.length s = some (l.map (fun n => (true, n)), s1) ∧
        contents s1 [] ∧ s1.link = s.link
  | [], s, hc => ⟨s, rfl, hc, rfl⟩
  | x :: xs, s, hc => by
    obtain ⟨s1, h1, h2, h3⟩ := pop_contents fuel s x xs hc
    obtain ⟨s2, h4, h5, h6⟩ := pop_times_contents fuel xs s1 h2
    refine ⟨s2, ?_, h5, h6.trans h3⟩
    simp [pop_times, h1, h4]

theorem reachable_contents {s : State} (h : Reachable s) :
    ∃ l, contents s l ∧ l.Nodup := by
  induction h with
  | init link => exact ⟨[], by simp [contents, chain, fresh, node.next_pointer], List.nodup_nil⟩
  | @push s s1 n l _ hn hlt hc hfresh hp ih =>
    obtain ⟨l0, hc0, hnd0⟩ := ih
    have e : l0 = l := chain_unique _ _ _ _ hc0 hc
    subst e
    obtain ⟨s2, h1, h2⟩ := push_contents s n l0 hn hlt hc hfresh
    rw [hp] at h1
    cases h1
    exact ⟨n :: l0, h2, List.nodup_cons.2 ⟨hfresh, hnd0⟩⟩
  | @pop s s1 fuel b n _ hp ih =>
    obtain ⟨l0, hc0, hnd0⟩ := ih
    cases fuel with
    | zero => simp [stack.pop, stack.pop_loop] at hp
    | succ f =>
      cases l0 with
      | nil =>
        rw [pop_empty_contents f s hc0] at hp
        cases hp
        exact ⟨[], hc0, hnd0⟩
      | cons x rest =>
        cases f with
        | zero =>
          exfalso
          have hne : node.next_pointer s.head_ ≠ 0 := by
            have := hc0
            simp only [contents, chain] at this
            rw [this.1]; exact this.2.1
          have h0 : s.head_ ≠ 0 := by
            intro h1; apply hne; rw [h1]; decide
          simp [stack.pop, stack.pop_loop, compare_exchange_weak, h0, hne] at hp
        | succ g =>
          obtain ⟨s2, h1, h2, _⟩ := pop_contents g s x rest hc0
          rw [hp] at h1
          cases h1
          exact ⟨rest, h2, (List.nodup_cons.1 hnd0).2⟩

theorem pop_times_null (fuel : Nat) (s : State) (h : node.next_pointer s.head_ = 0) :
    ∀ k, pop_times (fuel + 1) k s = some (List.replicate k (false, 0), s)
  | 0 => rfl
  | k + 1 => by
    simp [pop_times, pop_null fuel s h, pop_times_null fuel s h k, List.replicate_succ]

theorem thread_push_eq_push_list :
    ∀ (d : List Nat) (s : State), (∀ n ∈ d, n ≠ 0) → thread_push s d = push_list s d
  | [], _, _ => rfl
  | n :: ns, s, h => by
    have hn : n ≠ 0 := h n (by simp)
    simp only [thread_push, push_list, hn, ne_eq, not_false_eq_true, if_true]
    cases stack.push s n with
    | none => rfl
    | some s1 => exact thread_push_eq_push_list ns s1 (fun m hm => h m (by simp [hm]))

theorem thread_pop_contents (fuel : Nat) :
    ∀ (l d : List Nat) (s : State), contents s l → l.length = d.length →
      ∃ s1, thread_pop (fuel + 2) s d = some (l, s1) ∧ contents s1 []
  | [], [], s, hc, _ => ⟨s, rfl, hc⟩
  | [], _ :: _, _, _, h => by simp at h
  | _ :: _, [], _, _, h => by simp at h
  | x :: xs, _ :: ds, s, hc, h => by
    obtain ⟨s1, h1, h2, _⟩ := pop_contents fuel s x xs hc
    obtain ⟨s2, h3, h4⟩ := thread_pop_contents fuel xs ds s1 h2 (by simpa using h)
    exact ⟨s2, by simp [thread_pop, h1, h3], h4⟩

theorem empty_count_eq_zero : ∀ (d : List Nat), (∀ n ∈ d, n ≠ 0) → empty_count d = 0
  | [], _ => rfl
  | n :: ns, h => by
    have hn : n ≠ 0 := h n (by simp)
    simp only [empty_count, hn, ne_eq, not_false_eq_true, if_true]
    exact empty_count_eq_zero ns (fun m hm => h m (by simp [hm]))

theorem thread_loop_contents (fuel : Nat) :
    ∀ (k : Nat) (s : State) (d : List Nat), contents s [] → d.Nodup →
      (∀ n ∈ d, n ≠ 0 ∧ n < 2 ^ 48) →
      ∃ d1 s1, thread_loop (fuel + 2) k s d = some (d1, s1) ∧ d1.Perm d ∧ contents s1 []
  | 0, s, d, hc, _, _ => ⟨d, s, rfl, List.Perm.refl d, hc⟩
  | k + 1, s, d, hc, hnd, hall => by
    obtain ⟨s1, h1, h2⟩ := push_list_contents d s [] hc hnd
      (fun n hn => ⟨(hall n hn).1, (hall n hn).2, by simp⟩)
    rw [List.append_nil] at h2
    rw [← thread_push_eq_push_list d s (fun n hn => (hall n hn).1)] at h1
    obtain ⟨s2, h3, h4⟩ := thread_pop_contents fuel d.reverse d s1 h2 (by simp)
    obtain ⟨d1, s3, h5, h6, h7⟩ := thread_loop_contents fuel k s2 d.reverse h4
      (List.nodup_reverse.2 hnd) (fun n hn => hall n (List.mem_reverse.1 hn))
    exact ⟨d1, s3, by simp [thread_loop, h1, h3, h5], h6.trans (List.reverse_perm d), h7⟩

/-- The link fields after `push 16`, `push 32` on the fresh stack over a zeroed
heap. -/
def link_A_B : Nat → Nat := store (store (store (fun _ => 0) 16 0) 32 0) 32 16

/-- The state after `push 16`, `push 32`, `pop` on the fresh stack: node 16 is
on top, pushed by the fast path, and the head is (16, tag 2). -/
def state_A_again : State := ⟨pack 16 2, link_A_B⟩

theorem reachable_state_A_again : Reachable state_A_again :=
  Reachable.pop (s := ⟨pack 32 1, link_A_B⟩) 2 true 32
    (Reachable.push (s := ⟨16, store (fun _ => 0) 16 0⟩) 32 [16]
      (Reachable.push (s := fresh (fun _ => 0)) 16 [] (Reachable.init (fun _ => 0))
        (by decide) (by decide) (by decide) (by decide) rfl)
      (by decide) (by decide) (by decide) (by decide) rfl)
    rfl

theorem next_pointer_create_id (self nid : Nat) :
    node.next_pointer (node.create_id self nid) = node.next_pointer self := by
  rw [create_id_eq, next_pointer_pack, next_pointer_eq_mod, Nat.mod_mod]

theorem next_pointer_retag :
    ∀ (nids : List Nat) (p : Nat), node.next_pointer (retag p nids) = node.next_pointer p
  | [], _ => rfl
  | nid :: nids, p => by
    show node.next_pointer (retag (node.create_id p nid) nids) = _
    rw [next_pointer_retag nids, next_pointer_create_id]

theorem pop_loop_link :
    ∀ (fuel : Nat) (s : State) (old_head new_head n : Nat) (r : Bool × Nat × State),
      stack.pop_loop fuel s old_head new_head n = some r → r.2.2.link = s.link
  | 0, _, _, _, _, _, h => by simp [stack.pop_loop] at h
  | fuel + 1, s, old_head, new_head, n, r, h => by
    unfold stack.pop_loop compare_exchange_weak at h
    by_cases hc : s.head_ = old_head
    · simp only [hc, if_true] at h
      cases h; rfl
    · simp only [hc, if_false] at h
      by_cases hn : node.next_pointer s.head_ = 0
      · simp only [hn, if_true] at h
        cases h; rfl
      · simp only [hn, if_false] at h
        exact pop_loop_link fuel _ _ _ _ r h

theorem pop_fuel (k : Nat) (s : State) : stack.pop (k + 2) s = stack.pop 2 s := by
  by_cases h : node.next_pointer s.head_ = 0
  · rw [pop_null (k + 1) s h, pop_null 1 s h]
  · rw [pop_top k s h, pop_top 0 s h]

theorem pack_components (v : Nat) (hv : v < 2 ^ 64) :
    pack (node.next_pointer v) (node.id3 v) = v := by
  rw [next_pointer_eq_mod]; unfold pack node.id3; omega

theorem pop_times_cycle (fuel A : Nat) (hA : A ≠ 0) :
    ∀ (k : Nat) (s : State), node.next_pointer s.head_ = A →
      node.next_pointer (s.link A) = A →
      ∃ s1, pop_times (fuel + 2) k s = some (List.replicate k (true, A), s1)
  | 0, s, _, _ => ⟨s, rfl⟩
  | k + 1, s, hh, hl => by
    have hne : node.next_pointer s.head_ ≠ 0 := by rw [hh]; exact hA
    have hp := pop_top fuel s hne
    rw [hh] at hp
    obtain ⟨s1, h1⟩ := pop_times_cycle fuel A hA k
      ⟨node.set 0 (s.link A) (node.reference.other s.head_), s.link⟩
      (by rw [next_pointer_set]; exact hl) hl
    exact ⟨s1, by simp [pop_times, hp, h1, List.replicate_succ]⟩

/-- Closed form of the head written by `pop` on a head with a non-null pointer
component. -/
theorem pop_head_written (s : State) (fuel : Nat)
    (htop : node.next_pointer s.head_ ≠ 0) (hfuel : 2 ≤ fuel) :
    stack.pop fuel s = some (true, node.next_pointer s.head_,
      ⟨if s.link (node.next_pointer s.head_) ≠ 0
        then pack (node.next_pointer (s.link (node.next_pointer s.head_)))
          ((node.id3 s.head_ + 1) % 2 ^ 16)
        else pack 0 1, s.link⟩) := by
  obtain ⟨f, rfl⟩ : ∃ f, fuel = f + 2 := ⟨fuel - 2, by omega⟩
  rw [pop_top f s htop]
  by_cases h : s.link (node.next_pointer s.head_) = 0
  · simp [h, set_zero]
  · rw [set_of_ne_zero 0 s.head_ h, if_pos h, next_pointer_eq_mod (s.link _)]

/-- Closed form of `set` in both encodings, for either kind of reference. -/
theorem set_result (self n : Nat) (nid : node.reference) (self32 : node32)
    (nid32 : node32.reference) :
    node.next_pointer (node.set self n nid) = node.next_pointer n ∧
      node.id3 (node.set self n nid) =
        (if n ≠ 0 then (node.id3 (nid.read n) + 1) % 2 ^ 16 else 1) ∧
      (node32.set self32 n nid32).n_ = n ∧
      (node32.set self32 n nid32).t_ =
        (if n ≠ 0 then ((nid32.read { self32 with n_ := n }).t_ + 1) % 2 ^ 32
          else (self32.t_ + 1) % 2 ^ 32) := by
  refine ⟨next_pointer_set self n nid, ?_, ?_, ?_⟩
  · by_cases h : n = 0
    · subst h; rw [set_zero, if_neg (by simp)]; decide
    · rw [if_pos h]
      cases nid with
      | own =>
        rw [set_own_of_ne_zero self h]
        exact id3_pack (Nat.mod_lt _ (by decide)) (Nat.mod_lt _ (by decide))
      | other w =>
        rw [set_of_ne_zero self w h]
        exact id3_pack (Nat.mod_lt _ (by decide)) (Nat.mod_lt _ (by decide))
  · by_cases h : n = 0 <;> simp [node32.set, node32.create_id, h]
  · by_cases h : n = 0 <;> simp [node32.set, node32.create_id, node32.reference.read, h]

/-- The link fields after `push 16`, `push 32`, `push 48` on the fresh stack
over a zeroed heap. -/
def link_A_B_C : Nat → Nat := store (store link_A_B 48 0) 48 (pack 32 1)

/-- The link fields after node 48 is pushed again on the emptied stack with
head (null, 1). -/
def link_C_again : Nat → Nat := store (store link_A_B_C 48 0) 48 (pack 0 1)

/-! ## Claims -/

/-- C1 (LIFO order and round trip, single thread): from the freshly
constructed stack, pushing a list of distinct non-null nodes with addresses
below `2 ^ 48` in order succeeds, the next `N` calls of `pop` all return `true`
and hand back exactly those nodes in reverse push order, and one more `pop`
returns `false` with a null handle. -/
theorem lifo_round_trip (link : Nat → Nat) (ns : List Nat) (fuel : Nat)
    (hnd : ns.Nodup) (hnz : ∀ n ∈ ns, n ≠ 0) (hlt : ∀ n ∈ ns, n < 2 ^ 48)
    (hfuel : 2 ≤ fuel) :
    ∃ s s1, push_list (fresh link) ns = some s ∧
      pop_times fuel ns.length s = some (ns.reverse.map (fun n => (true, n)), s1) ∧
      stack.pop fuel s1 = some (false, 0, s1) := by
  obtain ⟨f, rfl⟩ : ∃ f, fuel = f + 2 := ⟨fuel - 2, by omega⟩
  have h0 : contents (fresh link) [] := by
    simp [contents, chain, fresh, node.next_pointer]
  obtain ⟨s, h1, h2⟩ := push_list_contents ns (fresh link) [] h0 hnd
    (fun n hn => ⟨hnz n hn, hlt n hn, by simp⟩)
  rw [List.append_nil] at h2
  obtain ⟨s1, h3, h4, _⟩ := pop_times_contents f ns.reverse s h2
  rw [List.length_reverse] at h3
  exact ⟨s, s1, h1, h3, pop_empty_contents (f + 1) s1 h4⟩

/-- Witness of C1: the nodes at addresses 16, 32, 48 come back as 48, 32, 16. -/
theorem lifo_round_trip_witness :
    ∃ s s1, push_list (fresh (fun _ => 0)) [16, 32, 48] = some s ∧
      pop_times 2 3 s = some ([(true, 48), (true, 32), (true, 16)], s1) ∧
      stack.pop 2 s1 = some (false, 0, s1) :=
  lifo_round_trip (fun _ => 0) [16, 32, 48] 2 (by decide) (by decide) (by decide) (by decide)

/-- C2 (sequential refinement of an abstract list): every state reachable by
sequential calls has a contents list, which is unique and has no repetition;
pushing a non-null node with an address below `2 ^ 48` that is not in the
contents `l` gives contents `n :: l`; and on contents `x :: rest` a `pop`
returns `true` with handle exactly `x` and leaves contents `rest`. -/
theorem sequential_refinement (s : State) (hr : Reachable s) :
    ∃ l, contents s l ∧ l.Nodup ∧ (∀ l1, contents s l1 → l1 = l) ∧
      (∀ n, n ≠ 0 → n < 2 ^ 48 → n ∉ l →
        ∃ s1, stack.push s n = some s1 ∧ contents s1 (n :: l)) ∧
      (∀ x rest fuel, l = x :: rest → 2 ≤ fuel →
        ∃ s1, stack.pop fuel s = some (true, x, s1) ∧ contents s1 rest) := by
  obtain ⟨l, hc, hnd⟩ := reachable_contents hr
  refine ⟨l, hc, hnd, fun l1 h1 => chain_unique _ _ _ _ h1 hc, ?_, ?_⟩
  · intro n hn hlt hfresh
    exact push_contents s n l hn hlt hc hfresh
  · intro x rest fuel hl hfuel
    obtain ⟨f, rfl⟩ : ∃ f, fuel = f + 2 := ⟨fuel - 2, by omega⟩
    subst hl
    obtain ⟨s1, h1, h2, _⟩ := pop_contents f s x rest hc
    exact ⟨s1, h1, h2⟩

/-- Witness of C2: the state after pushing the node at address 16 on the
fresh stack. -/
theorem sequential_refinement_witness :
    ∃ l, contents ⟨16, store (fun _ => 0) 16 0⟩ l ∧ l.Nodup ∧
      (∀ l1, contents ⟨16, store (fun _ => 0) 16 0⟩ l1 → l1 = l) ∧
      (∀ n, n ≠ 0 → n < 2 ^ 48 → n ∉ l →
        ∃ s1, stack.push ⟨16, store (fun _ => 0) 16 0⟩ n = some s1 ∧ contents s1 (n :: l)) ∧
      (∀ x rest fuel, l = x :: rest → 2 ≤ fuel →
        ∃ s1, stack.pop fuel ⟨16, store (fun _ => 0) 16 0⟩ = some (true, x, s1) ∧
          contents s1 rest) :=
  sequential_refinement ⟨16, store (fun _ => 0) 16 0⟩
    (Reachable.push 16 [] (Reachable.init (fun _ => 0)) (by decide) (by decide)
      (by decide) (by decide) rfl)

/-- C3 (empty-pop idempotence): on every state whose head has a null pointer
component, whatever its tag, `pop` returns `false` with a null handle and
leaves `head_` and every link field as they were; so does any number of
repeated calls. -/
theorem pop_empty_idempotent (s : State) (fuel : Nat)
    (hnull : node.next_pointer s.head_ = 0) (hfuel : 1 ≤ fuel) :
    stack.pop fuel s = some (false, 0, s) ∧
      ∀ k, pop_times fuel k s = some (List.replicate k (false, 0), s) := by
  obtain ⟨f, rfl⟩ : ∃ f, fuel = f + 1 := ⟨fuel - 1, by omega⟩
  exact ⟨pop_null f s hnull, pop_times_null f s hnull⟩

/-- Witness of C3: the empty stack whose head is (null, 7). -/
theorem pop_empty_idempotent_witness :
    stack.pop 1 ⟨pack 0 7, fun _ => 0⟩ = some (false, 0, ⟨pack 0 7, fun _ => 0⟩) ∧
      ∀ k, pop_times 1 k ⟨pack 0 7, fun _ => 0⟩ =
        some (List.replicate k (false, 0), ⟨pack 0 7, fun _ => 0⟩) :=
  pop_empty_idempotent ⟨pack 0 7, fun _ => 0⟩ 1 (by decide) (by decide)

/-- C4 (ABA resistance), evaluated at the run `push 16`, `push 32`, `pop`,
observe `h`, `pop`, `push 16`: the observed state is reachable, node 16 is on
top with head `h` = (16, tag 2); after node 16 is popped and pushed back the
head is again exactly `h`, and a compare-and-swap that expects the stale `h`
succeeds. -/
theorem aba_stale_head_matches :
    Reachable state_A_again ∧ contents state_A_again [16] ∧
      state_A_again.head_ = pack 16 2 ∧
      stack.pop 2 state_A_again = some (true, 16, ⟨pack 0 1, link_A_B⟩) ∧
      stack.push ⟨pack 0 1, link_A_B⟩ 16 =
        some ⟨pack 16 2, store (store link_A_B 16 0) 16 (pack 0 1)⟩ ∧
      ∀ desired, compare_exchange_weak (pack 16 2) state_A_again.head_ desired =
        (true, desired, state_A_again.head_) :=
  ⟨reachable_state_A_again, by decide, rfl, rfl, rfl, fun _ => rfl⟩

/-- C5 (single-thread workload conservation): one thread running the loop of
`thread_test` with distinct non-null nodes (addresses below `2 ^ 48`) on an
empty stack completes every number `k` of outer iterations; afterwards the
array `d` is a permutation of the original nodes, no entry is null, the head
pointer is null, and the count of nodes that failed to return is 0. -/
theorem thread_test_conservation (fuel k : Nat) (s : State) (d : List Nat)
    (hempty : node.next_pointer s.head_ = 0) (hnd : d.Nodup)
    (hall : ∀ n ∈ d, n ≠ 0 ∧ n < 2 ^ 48) (hfuel : 2 ≤ fuel) :
    ∃ d1 s1, thread_loop fuel k s d = some (d1, s1) ∧ d1.Perm d ∧ (∀ n ∈ d1, n ≠ 0) ∧
      node.next_pointer s1.head_ = 0 ∧ thread_test fuel k s d = some (0, s1) := by
  obtain ⟨f, rfl⟩ : ∃ f, fuel = f + 2 := ⟨fuel - 2, by omega⟩
  obtain ⟨d1, s1, h1, h2, h3⟩ := thread_loop_contents f k s d hempty hnd hall
  have hnz : ∀ n ∈ d1, n ≠ 0 := fun n hn => (hall n (h2.mem_iff.1 hn)).1
  refine ⟨d1, s1, h1, h2, hnz, h3, ?_⟩
  simp [thread_test, h1, empty_count_eq_zero d1 hnz]

/-- Witness of C5: three nodes, 70000 outer iterations (the 16-bit tag wraps),
starting from the fresh stack. -/
theorem thread_test_conservation_witness :
    ∃ d1 s1, thread_loop 2 70000 (fresh (fun _ => 0)) [16, 32, 48] = some (d1, s1) ∧
      d1.Perm [16, 32, 48] ∧ (∀ n ∈ d1, n ≠ 0) ∧ node.next_pointer s1.head_ = 0 ∧
      thread_test 2 70000 (fresh (fun _ => 0)) [16, 32, 48] = some (0, s1) :=
  thread_test_conservation 2 70000 (fresh (fun _ => 0)) [16, 32, 48] (by decide) (by decide)
    (by decide) (by decide)

/-- C6 (linearizability), evaluated at a schedule of two threads on the stack
holding 16, 32, 48 with head (48, tag 2). Thread 1 starts `pop`: its first
compare-and-swap fails and it goes round the loop once, leaving
`old_head` = (48, 2), `new_head` = (32, 3), `n` = 48, with the memory unchanged.
Thread 2 then pops 48, 32, 16 (the last `pop` writes (null, 1)) and pushes 48
again, which writes (48, 2). Thread 1 resumes: its compare-and-swap expects
(48, 2), succeeds and writes (32, 3). Nodes 32 and 16, already handed to
thread 2 and never pushed again, are in the stack once more and the next two
calls of `pop` return them a second time. -/
theorem stale_pop_returns_nodes_twice :
    push_list (fresh (fun _ => 0)) [16, 32, 48] = some ⟨pack 48 2, link_A_B_C⟩ ∧
      (∀ fuel, stack.pop (fuel + 1) ⟨pack 48 2, link_A_B_C⟩ =
        stack.pop_loop fuel ⟨pack 48 2, link_A_B_C⟩ (pack 48 2) (pack 32 3) 48) ∧
      pop_times 2 3 ⟨pack 48 2, link_A_B_C⟩ =
        some ([(true, 48), (true, 32), (true, 16)], ⟨pack 0 1, link_A_B_C⟩) ∧
      stack.push ⟨pack 0 1, link_A_B_C⟩ 48 = some ⟨pack 48 2, link_C_again⟩ ∧
      contents ⟨pack 48 2, link_C_again⟩ [48] ∧
      stack.pop_loop 1 ⟨pack 48 2, link_C_again⟩ (pack 48 2) (pack 32 3) 48 =
        some (true, 48, ⟨pack 32 3, link_C_again⟩) ∧
      contents ⟨pack 32 3, link_C_again⟩ [32, 16] ∧
      pop_times 2 2 ⟨pack 32 3, link_C_again⟩ =
        some ([(true, 32), (true, 16)], ⟨pack 0 1, link_C_again⟩) :=
  ⟨rfl, fun _ => rfl, rfl, rfl, by decide, rfl, by decide, rfl⟩

/-- C7 (postcondition of `push` without interference), for a node with an
address below `2 ^ 48`: when `head_` is exactly (null, 0) the call returns with
`head_` = (n, tag 0) and a null link in `n`; otherwise it returns with the whole
previous head word in the link of `n` and `head_` = (n, (t + 1) mod 2^16),
where `t` is the tag of the previous head. No other link changes. -/
theorem push_postcondition (s : State) (n : Nat) (hlt : n < 2 ^ 48) :
    stack.push s n = some (if s.head_ = 0 then ⟨pack n 0, store s.link n 0⟩
      else ⟨pack n ((node.id3 s.head_ + 1) % 2 ^ 16), store s.link n s.head_⟩) ∧
      node.next_pointer (pack n 0) = n ∧ node.id3 (pack n 0) = 0 ∧
      node.next_pointer (pack n ((node.id3 s.head_ + 1) % 2 ^ 16)) = n ∧
      node.id3 (pack n ((node.id3 s.head_ + 1) % 2 ^ 16)) = (node.id3 s.head_ + 1) % 2 ^ 16 ∧
      store s.link n 0 n = 0 ∧ store s.link n s.head_ n = s.head_ := by
  refine ⟨?_, ?_, id3_pack hlt (by decide), ?_, id3_pack hlt (Nat.mod_lt _ (by decide)),
    store_same _ _ _, store_same _ _ _⟩
  · rw [push_eq, create_id_eq, Nat.mod_eq_of_lt hlt]
    simp [pack]
  · rw [next_pointer_pack, Nat.mod_eq_of_lt hlt]
  · rw [next_pointer_pack, Nat.mod_eq_of_lt hlt]

/-- Witness of C7: pushing node 32 on the empty stack with head (null, 65535);
the new head is (32, tag 0) and the link of 32 holds the word (null, 65535). -/
theorem push_postcondition_witness :
    stack.push ⟨pack 0 65535, fun _ => 0⟩ 32 =
      some (if (⟨pack 0 65535, fun _ => 0⟩ : State).head_ = 0
        then ⟨pack 32 0, store (fun _ => 0) 32 0⟩
        else ⟨pack 32 ((node.id3 (pack 0 65535) + 1) % 2 ^ 16),
          store (fun _ => 0) 32 (pack 0 65535)⟩) ∧
      node.id3 (pack 32 ((node.id3 (pack 0 65535) + 1) % 2 ^ 16)) = 0 :=
  ⟨(push_postcondition ⟨pack 0 65535, fun _ => 0⟩ 32 (by decide)).1, by decide⟩

/-- C8, evaluated at the reachable state with head (16, tag 2) whose top node
16 has a zero link word (reached by `push 16`, `push 32`, `pop`): `pop` returns
node 16 and writes the head (null, 1), not (null, 2 + 1). On the sibling path,
an emptying `pop` over a link word that is not zero, the observed tag is
advanced: head (32, tag 7) over the link word (null, 9) gives (null, 8). -/
theorem pop_head_at_emptying :
    Reachable state_A_again ∧ state_A_again.head_ = pack 16 2 ∧
      state_A_again.link 16 = 0 ∧
      stack.pop 2 state_A_again = some (true, 16, ⟨pack 0 1, link_A_B⟩) ∧
      pack 0 1 ≠ pack (node.next_pointer (state_A_again.link 16)) ((2 + 1) % 2 ^ 16) ∧
      stack.pop 2 ⟨pack 32 7, store (fun _ => 0) 32 (pack 0 9)⟩ =
        some (true, 32, ⟨pack 0 ((7 + 1) % 2 ^ 16), store (fun _ => 0) 32 (pack 0 9)⟩) :=
  ⟨reachable_state_A_again, rfl, rfl, rfl, by decide, rfl⟩

/-- C9, evaluated in the packed encoding at own tag 5 and a null `pointer`:
`set` leaves the tag 1, not 5 + 1, because `n_ = n` has cleared the own tag
before `create_id(*this)` reads it; the separate-field encoding gives 5 + 1 on
the same input. Likewise with a non-null `pointer` and the object itself as
reference: the packed encoding gives tag 1, the separate-field encoding
5 + 1. -/
theorem set_own_tag_lost :
    node.id3 (pack 0 5) = 5 ∧
      node.id3 (node.set (pack 0 5) 0 (node.reference.other (pack 0 9))) = 1 ∧
      node.id3 (node.set (pack 0 5) 0 (node.reference.other (pack 0 9))) ≠
        (node.id3 (pack 0 5) + 1) % 2 ^ 16 ∧
      (node32.set ⟨0, 5⟩ 0 (node32.reference.other ⟨0, 9⟩)).t_ = 5 + 1 ∧
      node.id3 (node.set (pack 0 5) 16 node.reference.own) = 1 ∧
      node.id3 (node.set (pack 0 5) 16 node.reference.own) ≠
        (node.id3 (pack 0 5) + 1) % 2 ^ 16 ∧
      (node32.set ⟨0, 5⟩ 16 node32.reference.own).t_ = 5 + 1 := by
  decide

/-- C10 (`create_id` in the packed encoding): the tag of the result is
(tag of `previous` + 1) mod 2^16, the low 48 bits of the word are those of
`self`, and the result is again a 64-bit word; in particular the tag 65535
wraps to 0. -/
theorem create_id_packed (self previous : Nat) :
    node.id3 (node.create_id self previous) = (node.id3 previous + 1) % 2 ^ 16 ∧
      node.create_id self previous % 2 ^ 48 = self % 2 ^ 48 ∧
      node.next_pointer (node.create_id self previous) = node.next_pointer self ∧
      node.create_id self previous < 2 ^ 64 ∧
      node.id3 (node.create_id self (pack (previous % 2 ^ 48) 65535)) = 0 := by
  have h1 : node.id3 (node.create_id self previous) = (node.id3 previous + 1) % 2 ^ 16 := by
    rw [create_id_eq]
    exact id3_pack (Nat.mod_lt _ (by decide)) (Nat.mod_lt _ (by decide))
  have h2 : node.create_id self previous % 2 ^ 48 = self % 2 ^ 48 := by
    rw [create_id_eq]; unfold pack; omega
  refine ⟨h1, h2, ?_, ?_, ?_⟩
  · rw [next_pointer_eq_mod, next_pointer_eq_mod, h2]
  · rw [create_id_eq]; unfold pack
    have := Nat.mod_lt self (show 0 < 2 ^ 48 by decide)
    have := Nat.mod_lt (node.id3 previous + 1) (show 0 < 2 ^ 16 by decide)
    omega
  · rw [create_id_eq, id3_pack (Nat.mod_lt _ (by decide)) (Nat.mod_lt _ (by decide)),
      id3_pack (Nat.mod_lt _ (by decide)) (by decide)]
    decide

/-- C11 (`next_pointer` masks the tag off): `next_pointer` is the bitwise AND
with `0x0000FFFFFFFFFFFF`, that is, the word modulo `2 ^ 48`; it is idempotent
and does not depend on bits 48..63; and for a pointer `p` below `2 ^ 48`, every
word built from `p` by any number of `create_id` updates, or by packing any tag
next to it, has pointer `p`. -/
theorem next_pointer_masks_tag (p : Nat) (hp : p < 2 ^ 48) :
    (∀ nids, node.next_pointer (retag p nids) = p) ∧
      (∀ t, node.next_pointer (pack p t) = p) ∧
      (∀ w, node.next_pointer w = w &&& 0x0000FFFFFFFFFFFF) ∧
      (∀ w, node.next_pointer w = w % 2 ^ 48) ∧
      (∀ w, node.next_pointer (node.next_pointer w) = node.next_pointer w) ∧
      (∀ w t, node.next_pointer (node.set_id3 w t) = node.next_pointer w) := by
  refine ⟨fun nids => ?_, fun t => ?_, fun _ => rfl, next_pointer_eq_mod, fun w => ?_,
    fun w t => ?_⟩
  · rw [next_pointer_retag, next_pointer_of_lt hp]
  · rw [next_pointer_pack, Nat.mod_eq_of_lt hp]
  · rw [next_pointer_eq_mod, next_pointer_eq_mod, Nat.mod_mod]
  · rw [next_pointer_eq_mod, next_pointer_eq_mod]; unfold node.set_id3; omega

/-- Witness of C11: the pointer 4096. -/
theorem next_pointer_masks_tag_witness :
    (∀ nids, node.next_pointer (retag 4096 nids) = 4096) ∧
      (∀ t, node.next_pointer (pack 4096 t) = 4096) ∧
      (∀ w, node.next_pointer w = w &&& 0x0000FFFFFFFFFFFF) ∧
      (∀ w, node.next_pointer w = w % 2 ^ 48) ∧
      (∀ w, node.next_pointer (node.next_pointer w) = node.next_pointer w) ∧
      (∀ w t, node.next_pointer (node.set_id3 w t) = node.next_pointer w) :=
  next_pointer_masks_tag 4096 (by decide)

/-- C12, counterexample: the first `push` on the freshly constructed stack
writes the head (16, tag 0), whose pointer is not null, and the tag 0 is not
the previous tag 0 plus 1. -/
theorem tag_increment_counterexample :
    Reachable (fresh (fun _ => 0)) ∧
      stack.push (fresh (fun _ => 0)) 16 = some ⟨16, store (fun _ => 0) 16 0⟩ ∧
      node.next_pointer 16 ≠ 0 ∧
      node.id3 16 ≠ (node.id3 (fresh (fun _ => 0)).head_ + 1) % 2 ^ 16 :=
  ⟨Reachable.init _, rfl, by decide, by decide⟩

/-- C12, amended: a `push` of a node below `2 ^ 48` writes the tag 0 when the
previous head is exactly (null, 0) (the fast path) and the previous tag plus 1
modulo `2 ^ 16` otherwise; a `pop` that leaves a head with a non-null pointer
component leaves the previous tag plus 1 modulo `2 ^ 16`. -/
theorem tag_increment_rule (s : State) (n fuel : Nat) (hlt : n < 2 ^ 48) (hfuel : 2 ≤ fuel) :
    (∃ s1, stack.push s n = some s1 ∧
        node.id3 s1.head_ = (if s.head_ = 0 then 0 else (node.id3 s.head_ + 1) % 2 ^ 16)) ∧
      (∃ r, stack.pop fuel s = some r ∧
        (node.next_pointer r.2.2.head_ ≠ 0 →
          node.id3 r.2.2.head_ = (node.id3 s.head_ + 1) % 2 ^ 16)) := by
  obtain ⟨f, rfl⟩ : ∃ f, fuel = f + 2 := ⟨fuel - 2, by omega⟩
  constructor
  · rw [push_eq]
    by_cases h : s.head_ = 0
    · refine ⟨_, rfl, ?_⟩
      simp only [h, if_true]
      unfold node.id3; omega
    · refine ⟨_, rfl, ?_⟩
      simp only [h, if_false]
      rw [create_id_eq]
      exact id3_pack (Nat.mod_lt _ (by decide)) (Nat.mod_lt _ (by decide))
  · by_cases h : node.next_pointer s.head_ = 0
    · exact ⟨_, pop_null (f + 1) s h, fun hne => absurd h hne⟩
    · refine ⟨_, pop_top f s h, ?_⟩
      intro hne
      by_cases hl : s.link (node.next_pointer s.head_) = 0
      · exfalso; apply hne
        show node.next_pointer (node.set 0 (s.link (node.next_pointer s.head_))
          (node.reference.other s.head_)) = 0
        rw [hl, set_zero]; decide
      · show node.id3 (node.set 0 (s.link (node.next_pointer s.head_))
          (node.reference.other s.head_)) = _
        rw [set_of_ne_zero 0 s.head_ hl]
        exact id3_pack (Nat.mod_lt _ (by decide)) (Nat.mod_lt _ (by decide))

/-- Witness of C12 (amended): the state with head (32, tag 1) above node 16. -/
theorem tag_increment_rule_witness :
    (∃ s1, stack.push ⟨pack 32 1, link_A_B⟩ 48 = some s1 ∧
        node.id3 s1.head_ = (if (⟨pack 32 1, link_A_B⟩ : State).head_ = 0 then 0
          else (node.id3 (pack 32 1) + 1) % 2 ^ 16)) ∧
      (∃ r, stack.pop 2 ⟨pack 32 1, link_A_B⟩ = some r ∧
        (node.next_pointer r.2.2.head_ ≠ 0 →
          node.id3 r.2.2.head_ = (node.id3 (pack 32 1) + 1) % 2 ^ 16)) :=
  tag_increment_rule ⟨pack 32 1, link_A_B⟩ 48 2 (by decide) (by decide)

/-- C13 (the trap of `push` is not reached without interference): for every
state and every node, `push` returns, so `__debugbreak()` is not reached, after
at most its two compare-and-swap attempts, because the attempt in the loop
expects the value just read back and succeeds; `pop` returns within two
attempts, and more fuel does not change its result. -/
theorem push_pop_return (s : State) (n : Nat) :
    (∃ s1, stack.push s n = some s1) ∧
      (∀ h desired, compare_exchange_weak h h desired = (true, desired, h)) ∧
      (∃ r, stack.pop 2 s = some r) ∧
      (∀ k, stack.pop (k + 2) s = stack.pop 2 s) := by
  refine ⟨⟨_, push_eq s n⟩, fun h d => by simp [compare_exchange_weak], ?_, fun k => pop_fuel k s⟩
  by_cases h : node.next_pointer s.head_ = 0
  · exact ⟨_, pop_null 1 s h⟩
  · exact ⟨_, pop_top 0 s h⟩

/-- C14 (frame of the operations): `push(n)` leaves the link field of every
node other than `n` unchanged, and `pop` leaves every link field unchanged,
that of the returned node included. -/
theorem frame (s s1 s2 : State) (n fuel x : Nat) (b : Bool)
    (hpush : stack.push s n = some s1) (hpop : stack.pop fuel s = some (b, x, s2)) :
    (∀ a, a ≠ n → s1.link a = s.link a) ∧ s2.link = s.link := by
  constructor
  · intro a ha
    obtain ⟨s3, h1, h2, _⟩ := push_link s n
    rw [hpush] at h1
    cases h1
    rw [h2, store_other _ _ ha]
  · exact pop_loop_link fuel s 0 0 0 _ hpop

/-- Witness of C14: pushing node 48 on, and popping from, the state with head
(32, tag 1) above node 16. -/
theorem frame_witness :
    (∀ a, a ≠ 48 → store (store link_A_B 48 0) 48 (pack 32 1) a = link_A_B a) ∧
      link_A_B = link_A_B :=
  frame ⟨pack 32 1, link_A_B⟩ ⟨pack 48 2, store (store link_A_B 48 0) 48 (pack 32 1)⟩
    ⟨pack 16 2, link_A_B⟩ 48 2 32 true rfl rfl

/-- C15 (equality of tagged head values, packed encoding): two 64-bit head
words are equal, which is what the compare-and-swap tests, exactly when their
pointer components and their tags (bits 48..63) are equal; every 64-bit word is
the pair of its pointer and its tag, and a pair of a pointer below `2 ^ 48` and
a 16-bit tag is a 64-bit word with that pointer and that tag. -/
theorem head_word_eq_iff (v w : Nat) (hv : v < 2 ^ 64) (hw : w < 2 ^ 64) :
    (v = w ↔ node.next_pointer v = node.next_pointer w ∧ node.id3 v = node.id3 w) ∧
      (∀ desired, (compare_exchange_weak v w desired).1 = true ↔
        node.next_pointer v = node.next_pointer w ∧ node.id3 v = node.id3 w) ∧
      pack (node.next_pointer v) (node.id3 v) = v ∧
      (∀ p t, p < 2 ^ 48 → t < 2 ^ 16 →
        node.next_pointer (pack p t) = p ∧ node.id3 (pack p t) = t ∧ pack p t < 2 ^ 64) := by
  have key : v = w ↔ node.next_pointer v = node.next_pointer w ∧ node.id3 v = node.id3 w := by
    constructor
    · intro h; subst h; exact ⟨rfl, rfl⟩
    · intro h
      rw [← pack_components v hv, ← pack_components w hw, h.1, h.2]
  refine ⟨key, fun d => ?_, pack_components v hv, fun p t hp ht => ?_⟩
  · rw [← key]
    by_cases h : v = w <;> simp [compare_exchange_weak, h]
  · refine ⟨by rw [next_pointer_pack, Nat.mod_eq_of_lt hp], id3_pack hp ht, ?_⟩
    unfold pack; omega

/-- Witness of C15: the words (16, tag 2) and (16, tag 3). -/
theorem head_word_eq_iff_witness :
    (pack 16 2 = pack 16 3 ↔ node.next_pointer (pack 16 2) = node.next_pointer (pack 16 3) ∧
        node.id3 (pack 16 2) = node.id3 (pack 16 3)) ∧
      (∀ desired, (compare_exchange_weak (pack 16 2) (pack 16 3) desired).1 = true ↔
        node.next_pointer (pack 16 2) = node.next_pointer (pack 16 3) ∧
          node.id3 (pack 16 2) = node.id3 (pack 16 3)) ∧
      pack (node.next_pointer (pack 16 2)) (node.id3 (pack 16 2)) = pack 16 2 ∧
      (∀ p t, p < 2 ^ 48 → t < 2 ^ 16 →
        node.next_pointer (pack p t) = p ∧ node.id3 (pack p t) = t ∧ pack p t < 2 ^ 64) :=
  head_word_eq_iff (pack 16 2) (pack 16 3) (by decide) (by decide)

/-- C16 (well-formedness of the chain): in every state reachable by sequential
calls that respect the precondition, the chain from `head_` is a finite list
that ends at a null pointer, has no node twice, and holds only non-null
addresses below `2 ^ 48`; and on any state with such a chain, whatever the tag
of its head, `push` of a new node and `pop` lead to a state with such a chain
again. -/
theorem chain_well_formed (s : State) (hr : Reachable s) :
    (∃ l, contents s l ∧ l.Nodup ∧ ∀ x ∈ l, x ≠ 0 ∧ x < 2 ^ 48) ∧
      (∀ (t : State) (l : List Nat) (n : Nat), contents t l → l.Nodup → n ≠ 0 → n < 2 ^ 48 →
        n ∉ l → ∃ t1, stack.push t n = some t1 ∧ contents t1 (n :: l) ∧ (n :: l).Nodup) ∧
      (∀ (t : State) (l : List Nat) (fuel : Nat), contents t l → l.Nodup → 2 ≤ fuel →
        ∃ r, stack.pop fuel t = some r ∧ contents r.2.2 l.tail ∧ l.tail.Nodup) := by
  refine ⟨?_, ?_, ?_⟩
  · obtain ⟨l, hc, hnd⟩ := reachable_contents hr
    exact ⟨l, hc, hnd, chain_lt _ _ _ hc⟩
  · intro t l n hc hnd hn hlt hfresh
    obtain ⟨t1, h1, h2⟩ := push_contents t n l hn hlt hc hfresh
    exact ⟨t1, h1, h2, List.nodup_cons.2 ⟨hfresh, hnd⟩⟩
  · intro t l fuel hc hnd hfuel
    obtain ⟨f, rfl⟩ : ∃ f, fuel = f + 2 := ⟨fuel - 2, by omega⟩
    cases l with
    | nil => exact ⟨_, pop_empty_contents (f + 1) t hc, hc, List.nodup_nil⟩
    | cons x rest =>
      obtain ⟨t1, h1, h2, _⟩ := pop_contents f t x rest hc
      exact ⟨_, h1, h2, (List.nodup_cons.1 hnd).2⟩

/-- Witness of C16: the reachable state with head (16, tag 2). -/
theorem chain_well_formed_witness :
    (∃ l, contents state_A_again l ∧ l.Nodup ∧ ∀ x ∈ l, x ≠ 0 ∧ x < 2 ^ 48) ∧
      (∀ (t : State) (l : List Nat) (n : Nat), contents t l → l.Nodup → n ≠ 0 → n < 2 ^ 48 →
        n ∉ l → ∃ t1, stack.push t n = some t1 ∧ contents t1 (n :: l) ∧ (n :: l).Nodup) ∧
      (∀ (t : State) (l : List Nat) (fuel : Nat), contents t l → l.Nodup → 2 ≤ fuel →
        ∃ r, stack.pop fuel t = some r ∧ contents r.2.2 l.tail ∧ l.tail.Nodup) :=
  chain_well_formed state_A_again reachable_state_A_again

/-- C17 (tag reset on emptying, packed encoding): on a head with a non-null
pointer component `x` and any tag `t`, `pop` sets `head_` to exactly (null, 1)
when the whole link word of `x` is zero, and to (null, (t + 1) mod 2^16) when
the link word of `x` has a null pointer component but is not zero. -/
theorem pop_emptying_tag (s : State) (fuel : Nat)
    (htop : node.next_pointer s.head_ ≠ 0) (hfuel : 2 ≤ fuel) :
    (s.link (node.next_pointer s.head_) = 0 →
        stack.pop fuel s = some (true, node.next_pointer s.head_, ⟨pack 0 1, s.link⟩)) ∧
      (s.link (node.next_pointer s.head_) ≠ 0 →
        node.next_pointer (s.link (node.next_pointer s.head_)) = 0 →
        stack.pop fuel s = some (true, node.next_pointer s.head_,
          ⟨pack 0 ((node.id3 s.head_ + 1) % 2 ^ 16), s.link⟩)) := by
  obtain ⟨f, rfl⟩ : ∃ f, fuel = f + 2 := ⟨fuel - 2, by omega⟩
  rw [pop_top f s htop]
  constructor
  · intro h0
    rw [h0, set_zero]
  · intro hne hnull
    rw [set_of_ne_zero 0 s.head_ hne, ← next_pointer_eq_mod, hnull]

/-- Witness of C17: with head (16, tag 2) and a zero link word in node 16 the
new head is (null, 1); with head (32, tag 7) and the link word (null, 9) in
node 32 the new head is (null, 8). -/
theorem pop_emptying_tag_witness :
    stack.pop 2 state_A_again = some (true, node.next_pointer state_A_again.head_,
        ⟨pack 0 1, state_A_again.link⟩) ∧
      stack.pop 2 ⟨pack 32 7, store (fun _ => 0) 32 (pack 0 9)⟩ =
        some (true, node.next_pointer (pack 32 7),
          ⟨pack 0 ((node.id3 (pack 32 7) + 1) % 2 ^ 16), store (fun _ => 0) 32 (pack 0 9)⟩) :=
  ⟨(pop_emptying_tag state_A_again 2 (by decide) (by decide)).1 (by decide),
    (pop_emptying_tag ⟨pack 32 7, store (fun _ => 0) 32 (pack 0 9)⟩ 2 (by decide)
      (by decide)).2 (by decide) (by decide)⟩

/-- C18 (the precondition "not already linked" is not checked): pushing the
same non-null node `A` (below `2 ^ 48`) twice on the fresh stack succeeds both
times and leaves the link of `A` pointing to `A`; from that state any number of
calls of `pop` all return `true` with handle `A`, none reports empty. -/
theorem double_push_cycle (link : Nat → Nat) (A fuel : Nat)
    (hA : A ≠ 0) (hlt : A < 2 ^ 48) (hfuel : 2 ≤ fuel) :
    ∃ s, push_list (fresh link) [A, A] = some s ∧ s.link A = A ∧
      node.next_pointer (s.link A) = A ∧
      ∀ k, ∃ s1, pop_times fuel k s = some (List.replicate k (true, A), s1) := by
  obtain ⟨f, rfl⟩ : ∃ f, fuel = f + 2 := ⟨fuel - 2, by omega⟩
  have hp : push_list (fresh link) [A, A] =
      some ⟨node.create_id A A, store (store link A 0) A A⟩ := by
    simp [push_list, push_eq, fresh, hA]
  have hl : store (store link A 0) A A A = A := store_same _ _ _
  have hn : node.next_pointer (store (store link A 0) A A A) = A := by
    rw [hl, next_pointer_of_lt hlt]
  refine ⟨_, hp, hl, hn, fun k => ?_⟩
  exact pop_times_cycle f A hA k _
    (by show node.next_pointer (node.create_id A A) = A
        rw [next_pointer_create_id, next_pointer_of_lt hlt]) hn

/-- Witness of C18: the node at address 16. -/
theorem double_push_cycle_witness :
    ∃ s, push_list (fresh (fun _ => 0)) [16, 16] = some s ∧ s.link 16 = 16 ∧
      node.next_pointer (s.link 16) = 16 ∧
      ∀ k, ∃ s1, pop_times 2 k s = some (List.replicate k (true, 16), s1) :=
  double_push_cycle (fun _ => 0) 16 2 (by decide) (by decide) (by decide)

end LockFreeStack
